import Mathlib

/-!
# Verification of the cargo-tangle core (src/main.rs)

A shallow embedding of the macro-extraction / dependency-graph / cycle-check /
expansion pipeline of `src/main.rs`.  Strings are modelled as `List Char`.
The three regexes of the program are fixed, so each is embedded as a
special-purpose matcher with Rust `regex`-crate semantics (leftmost-first,
`^` anchoring, greedy repetition, `\s` crossing newlines where the pattern
allows it):

* `MACRO_IDENT_RE = ^//\s*(<<(.+)>>=)\s*\n(.*)` (anchored, not multi-line),
  used by `CodeMacro::try_from` — embedded as `matchHeader`;
* `^ *//\s*<<(.+)>>\n` (multi-line), used with `captures_iter` to build the
  dependency graph — embedded as `invCaptures`;
* `^( *)//\s*<<(.+)>>\n` (multi-line), used by the expansion loop with
  `captures` / `replace` — embedded as `invFind`.

`Regex::replace` with a `String` replacement expands `$`-references
(`$0`, `$1`, `${name}`, `$$`, per `Captures::expand`); this is embedded
faithfully as `expandTemplate`.

`std::fs`, `pulldown_cmark` and `petgraph` are collaborators: the model's
input is the list of `Event::Text` payloads seen inside `rust`-fenced code
blocks (the texts `CodeMacro::try_from` is applied to), and
`petgraph::algo::is_cyclic_directed` is modelled extensionally by
`isCyclicDirected` (true iff the edge list has a directed cycle).  The
`HashMap` is modelled as an insertion-ordered association list; iteration
order of `values()` only affects which `UndefinedFragment` is reported
first and the order of the edge list, neither of which changes any
outcome class.  Panics (`expect` / `unwrap`) are modelled as explicit
outcomes: `rootMissing` ("No root macro found"), `undefinedFragment`
(the `unwrap` in graph building), `usedNotDefined` ("A macro was used,
but not defined.").  The possibly non-terminating expansion `while` loop
is modelled with fuel: `none` means "still running after `fuel` steps".
-/

set_option autoImplicit false

namespace Tangle

/-- `\s` of the regex crate on the ASCII range (the inputs of interest are
ASCII; `\x0b`/`\x0c` are vertical tab and form feed). -/
def isWs (c : Char) : Bool :=
  c = ' ' ∨ c = '\t' ∨ c = '\n' ∨ c = '\r' ∨ c = '\x0b' ∨ c = '\x0c'

/-- Convenience: the character list of a string literal. -/
def strL (s : String) : List Char := s.toList

/-! ## Rust `str` primitives -/

/-- `str::replace`: replace every non-overlapping occurrence of `pat`
(scanned left to right) by `rep`.  Fuel-driven so that it reduces by
`decide`/`rfl`; `s.length + 1` fuel always suffices because every step
consumes at least one character (call sites always pass a non-empty
pattern). -/
def replaceAllAux (pat rep : List Char) : Nat → List Char → List Char
  | 0, s => s
  | _ + 1, [] => []
  | f + 1, c :: s =>
    if pat ≠ [] ∧ pat.isPrefixOf (c :: s) then
      rep ++ replaceAllAux pat rep f ((c :: s).drop pat.length)
    else
      c :: replaceAllAux pat rep f s

def replaceAll (s pat rep : List Char) : List Char :=
  replaceAllAux pat rep (s.length + 1) s

/-- Split at `'\n'`, keeping every (possibly empty) segment, the `'\n'`
separators removed.  Never returns `[]`. -/
def splitNl : List Char → List (List Char)
  | [] => [[]]
  | c :: t =>
    if c = '\n' then [] :: splitNl t
    else
      match splitNl t with
      | l :: ls => (c :: l) :: ls
      | [] => [[c]]

/-- Strip one trailing `'\r'` (the `\r\n` handling of `str::lines`). -/
def stripTrailingCr (l : List Char) : List Char :=
  if l.getLast? = some '\r' then l.dropLast else l

/-- `str::lines`: segments of `split_inclusive('\n')` with the trailing
`'\n'` (and a `'\r'` before it) removed; a final segment only exists when
the text does not end with `'\n'`, and keeps any `'\r'`. -/
def rustLines (s : List Char) : List (List Char) :=
  match (splitNl s).reverse with
  | [] => []
  | last :: revInit =>
    revInit.reverse.map stripTrailingCr ++ (if last = [] then [] else [last])

/-! ## prepend_indents (src/main.rs lines 63-67) -/

/-- One indentation unit: four spaces (`"    "`). -/
def indentUnit : List Char := [' ', ' ', ' ', ' ']

/-- `n` concatenated copies of `l` (Rust `str::repeat`). -/
def repChunk : Nat → List Char → List Char
  | 0, _ => []
  | n + 1, l => l ++ repChunk n l

/-- `prepend_indents`: every line of `text` (in the `str::lines` sense)
prefixed by `indents` indentation units, each line re-terminated by
`'\n'`. -/
def prependIndents (text : List Char) (indents : Nat) : List Char :=
  List.flatten ((rustLines text).map fun l => repChunk indents indentUnit ++ l ++ ['\n'])

/-! ## The header regex `^//\s*(<<(.+)>>=)\s*\n(.*)` (CodeMacro::try_from) -/

/-- Strip the maximal run of trailing whitespace. -/
def stripTrailingWs (l : List Char) : List Char :=
  (l.reverse.dropWhile isWs).reverse

/-- `(.+)>>=\s*\n` applied to `rol`, the rest of the current line: since
`.` does not match `'\n'`, the `\s*\n` forces every character between the
`>>=` and the next newline to be whitespace, and the greedy `.+` picks the
longest name, i.e. the `>>=` ending where the maximal trailing whitespace
run of `rol` starts.  The name capture must be non-empty. -/
def headerTail (rol : List Char) : Option (List Char) :=
  match (stripTrailingWs rol).reverse with
  | e1 :: e2 :: e3 :: revNm =>
    if e1 = '=' ∧ e2 = '>' ∧ e3 = '>' ∧ revNm ≠ [] then some revNm.reverse
    else none
  | _ => none

/-- The part of the header match after the leading `"//"`: skip the maximal
`\s*` run (it may cross newlines), require `<<`, then `(.+)>>=\s*\n(.*)` on
the rest.  Returns group 2 (the name). -/
def headerBody (s1 : List Char) : Option (List Char) :=
  match s1.dropWhile isWs with
  | d1 :: d2 :: s3 =>
    if d1 = '<' ∧ d2 = '<' then
      match s3.dropWhile (fun c => c ≠ '\n') with
      | _ :: _ => headerTail (s3.takeWhile (fun c => c ≠ '\n'))
      | [] => none
    else none
  | _ => none

/-- `MACRO_IDENT_RE.captures(text)`: anchored at the start of the string
(the regex is not in multi-line mode), so the text must begin with `"//"`.
Returns the captured name (group 2); group 1 is always
`'<' :: '<' :: name ++ ">>="`. -/
def matchHeader (text : List Char) : Option (List Char) :=
  match text with
  | c1 :: c2 :: s1 => if c1 = '/' ∧ c2 = '/' then headerBody s1 else none
  | _ => none

/-! ## CodeMacro (src/main.rs lines 26-59) -/

structure CodeMacro where
  name : List Char
  content : List Char
  uuid : Nat
deriving DecidableEq

/-- `CodeMacro::try_from`: on a header match, the content is the whole text
with every occurrence of the literal `definition` capture (group 1,
`<<name>>=`) replaced by the bare name; `uuid` starts at 0. -/
def tryFromText (text : List Char) : Option CodeMacro :=
  (matchHeader text).map fun nm =>
    { name := nm
      content := replaceAll text ('<' :: '<' :: (nm ++ ['>', '>', '='])) nm
      uuid := 0 }

/-! ## The macro table (HashMap<String, CodeMacro>) -/

/-- Insertion-ordered association-list model of the `HashMap`. -/
abbrev CodeMacroCollection := List (List Char × CodeMacro)

def lookupName : CodeMacroCollection → List Char → Option CodeMacro
  | [], _ => none
  | e :: r, n => if e.1 = n then some e.2 else lookupName r n

def containsName : CodeMacroCollection → List Char → Bool
  | [], _ => false
  | e :: r, n => if e.1 = n then true else containsName r n

/-- One `Event::Text` step of the extraction loop (src/main.rs lines
111-124): parse the text; a successful parse gets the next ordinal `uuid`
(the counter advances even for redefinitions, which are discarded with a
warning — first definition wins). -/
def extractStep (st : CodeMacroCollection × Nat) (text : List Char) :
    CodeMacroCollection × Nat :=
  match tryFromText text with
  | none => st
  | some m =>
    let m2 := { m with uuid := st.2 }
    if containsName st.1 m2.name then (st.1, st.2 + 1)
    else (st.1 ++ [(m2.name, m2)], st.2 + 1)

/-- The macro table extracted from the text segments of the `rust`-fenced
code blocks of one document. -/
def extractMacros (texts : List (List Char)) : CodeMacroCollection :=
  (texts.foldl extractStep ([], 0)).1

/-! ## The invocation regexes `^( *)//\s*<<(.+)>>\n` (multi-line)

The graph-building regex (src/main.rs line 132) is the same pattern
without the indentation capture.  A match starts at a line start: maximal
spaces (group 1), `//`, a maximal `\s*` run (which may cross newlines),
`<<`, then `(.+)>>\n`; since `.` excludes `'\n'`, the `\n` of the pattern
is the first newline after the `<<`, so the rest of that line must end in
`>>` and group 2 is everything before that final `>>` (non-empty). -/

/-- `(.+)>>\n` applied to the text after the `<<`: the rest of the current
line must end in `>>` with a non-empty greedy name capture before it, and
a `'\n'` must follow.  Returns `(consumed text, name, rest)`. -/
def invTail (s4 : List Char) : Option (List Char × List Char × List Char) :=
  match s4.dropWhile (fun c => c ≠ '\n') with
  | e :: rest =>
    if e = '\n' then
      match (s4.takeWhile (fun c => c ≠ '\n')).reverse with
      | r1 :: r2 :: revNm =>
        if r1 = '>' ∧ r2 = '>' ∧ revNm ≠ [] then
          some (s4.takeWhile (fun c => c ≠ '\n') ++ [e], revNm.reverse, rest)
        else none
      | _ => none
    else none
  | [] => none

/-- Try the invocation pattern anchored at the current position.  Returns
`(group-1 length, group 0, group 2, text after the match)`. -/
def matchInvAt (s : List Char) : Option (Nat × List Char × List Char × List Char) :=
  match s.dropWhile (fun c => c = ' ') with
  | c1 :: c2 :: s2 =>
    if c1 = '/' ∧ c2 = '/' then
      match s2.dropWhile isWs with
      | d1 :: d2 :: s4 =>
        if d1 = '<' ∧ d2 = '<' then
          (invTail s4).map fun r =>
            ((s.takeWhile fun c => c = ' ').length,
             (s.takeWhile fun c => c = ' ') ++
               c1 :: c2 :: (s2.takeWhile isWs ++ d1 :: d2 :: r.1),
             r.2.1, r.2.2)
        else none
      | _ => none
    else none
  | _ => none

/-- A multi-line-mode match of the invocation pattern: the text before the
match, the captured indentation length (group 1), the whole match (group
0), the invoked name (group 2) and the text after the match. -/
structure InvCap where
  pre : List Char
  indent : Nat
  matched : List Char
  name : List Char
  rest : List Char
deriving DecidableEq

/-- Scan for the leftmost match: `^` in multi-line mode anchors at the
start of the text and right after every `'\n'` (tracked by `atStart`). -/
def invFindAux : Bool → List Char → Option InvCap
  | _, [] => none
  | atStart, c :: rest =>
    match (if atStart then matchInvAt (c :: rest) else none) with
    | some (k, m, nm, rst) => some ⟨[], k, m, nm, rst⟩
    | none => (invFindAux (c = '\n') rest).map fun cap => { cap with pre := c :: cap.pre }

/-- `macro_re.captures(s)`: the leftmost match of the invocation pattern. -/
def invFind (s : List Char) : Option InvCap := invFindAux true s

/-- `captures_iter`: successive non-overlapping matches, each search
resuming right after the previous match (which ends just after a `'\n'`,
hence at a line start).  Every match consumes at least one character, so
`s.length + 1` fuel is always enough. -/
def invCapturesAux : Nat → List Char → List InvCap
  | 0, _ => []
  | f + 1, s =>
    match invFind s with
    | none => []
    | some cap => cap :: invCapturesAux f cap.rest

def invCaptures (s : List Char) : List InvCap :=
  invCapturesAux (s.length + 1) s

/-! ## Replacement-template expansion (`Captures::expand`)

`Regex::replace` with a `String` replacement expands `$`-references:
`$$` is a literal `$`; `$name` with `name` the longest run of
`[0-9A-Za-z_]` (or `${name}` braced) names a capture group, all-digit
names by index; a reference to a group that does not exist produces the
empty string; a `$` not followed by a valid reference stays literal.
The pattern has exactly groups 0 (whole match), 1 (indent spaces) and
2 (name), all of which always participate. -/

def isRefChar (c : Char) : Bool := c.isAlphanum || c = '_'

def natOfDigits (l : List Char) : Nat :=
  l.foldl (fun a c => a * 10 + (c.toNat - 48)) 0

def groupText (g0 g1 g2 : List Char) (nm : List Char) : List Char :=
  if nm.all Char.isDigit then
    match natOfDigits nm with
    | 0 => g0
    | 1 => g1
    | 2 => g2
    | _ => []
  else []

def expandTemplateAux (g0 g1 g2 : List Char) : Nat → List Char → List Char
  | 0, s => s
  | _ + 1, [] => []
  | f + 1, c :: rest =>
    if c = '$' then
      match rest with
      | [] => ['$']
      | d :: r =>
        if d = '$' then '$' :: expandTemplateAux g0 g1 g2 f r
        else if d = '\x7b' then
          let nm := r.takeWhile (fun x => x ≠ '\x7d')
          match r.dropWhile (fun x => x ≠ '\x7d') with
          | _ :: r2 =>
            if nm = [] then '$' :: expandTemplateAux g0 g1 g2 f rest
            else groupText g0 g1 g2 nm ++ expandTemplateAux g0 g1 g2 f r2
          | [] => '$' :: expandTemplateAux g0 g1 g2 f rest
        else if isRefChar d then
          groupText g0 g1 g2 (rest.takeWhile isRefChar) ++
            expandTemplateAux g0 g1 g2 f (rest.dropWhile isRefChar)
        else '$' :: expandTemplateAux g0 g1 g2 f rest
    else c :: expandTemplateAux g0 g1 g2 f rest

def expandTemplate (g0 g1 g2 rep : List Char) : List Char :=
  expandTemplateAux g0 g1 g2 (rep.length + 1) rep

/-! ## Dependency-graph construction (src/main.rs lines 132-143) -/

/-- Edges contributed by one macro's content: for each invocation capture
in order, resolve the name; an unresolved name is the `unwrap` panic,
reported as `(invoking macro name, missing name)`. -/
def edgesForAux (cm : CodeMacroCollection) (mname : List Char) (muuid : Nat) :
    List InvCap → Except (List Char × List Char) (List (Nat × Nat))
  | [] => Except.ok []
  | cap :: rest =>
    match lookupName cm cap.name with
    | none => Except.error (mname, cap.name)
    | some m2 =>
      match edgesForAux cm mname muuid rest with
      | Except.error err => Except.error err
      | Except.ok es => Except.ok ((muuid, m2.uuid) :: es)

def linkEdgesAux (cm : CodeMacroCollection) :
    List (List Char × CodeMacro) → Except (List Char × List Char) (List (Nat × Nat))
  | [] => Except.ok []
  | e :: rest =>
    match edgesForAux cm e.2.name e.2.uuid (invCaptures e.2.content) with
    | Except.error err => Except.error err
    | Except.ok es1 =>
      match linkEdgesAux cm rest with
      | Except.error err => Except.error err
      | Except.ok es2 => Except.ok (es1 ++ es2)

/-- The dependency graph of the table, or the first undefined invocation. -/
def linkEdges (cm : CodeMacroCollection) :
    Except (List Char × List Char) (List (Nat × Nat)) :=
  linkEdgesAux cm cm

/-- The "reference graph" of a document in the sense of the specification:
every resolved invocation contributes an edge definer → invoked (edges to
undefined names do not exist). -/
def resolvedEdges (cm : CodeMacroCollection) : List (Nat × Nat) :=
  List.flatten (cm.map fun e =>
    (invCaptures e.2.content).filterMap fun cap =>
      (lookupName cm cap.name).map fun m2 => (e.2.uuid, m2.uuid))

/-! ## Cycle detection (petgraph::algo::is_cyclic_directed)

Modelled extensionally: the nodes reachable from a set grow monotonically
under `cycStep`; iterating it `2 * |edges| + 1` times (more than the
number of nodes) reaches a fixpoint of the membership set, so the graph
has a directed cycle iff some edge `(u, v)` has `u` reachable from `v`. -/

def cycStep (es : List (Nat × Nat)) (seen : List Nat) : List Nat :=
  seen ++ es.filterMap fun e => if e.1 ∈ seen ∧ e.2 ∉ seen then some e.2 else none

def cycReach (es : List (Nat × Nat)) : Nat → List Nat → List Nat
  | 0, seen => seen
  | f + 1, seen => cycReach es f (cycStep es seen)

def isCyclicDirected (es : List (Nat × Nat)) : Bool :=
  es.any fun e => e.1 ∈ cycReach es (2 * es.length + 1) [e.2]

/-! ## The expansion loop (src/main.rs lines 69-96) -/

inductive StepRes
  | done (s : List Char)
  | stuck
  | next (s : List Char)
deriving DecidableEq

/-- One iteration of the `while let` loop: find the first invocation match;
look the name up (`expect("A macro was used, but not defined.")` is
`stuck`); `macro_re.replace` splices in the replacement string — the
indented body run through template expansion, the groups being the whole
match, the captured indent spaces and the captured name. -/
def expandStep (cm : CodeMacroCollection) (s : List Char) : StepRes :=
  match invFind s with
  | none => StepRes.done s
  | some cap =>
    match lookupName cm cap.name with
    | none => StepRes.stuck
    | some mac =>
      StepRes.next (cap.pre ++
        expandTemplate cap.matched (List.replicate cap.indent ' ') cap.name
          (prependIndents mac.content (cap.indent / 4)) ++
        cap.rest)

inductive ExpandResult
  | ok (out : List Char)
  | rootMissing
  | usedNotDefined
deriving DecidableEq

def expandLoop (cm : CodeMacroCollection) : Nat → List Char → Option ExpandResult
  | 0, _ => none
  | fuel + 1, s =>
    match expandStep cm s with
    | StepRes.done out => some (ExpandResult.ok out)
    | StepRes.stuck => some ExpandResult.usedNotDefined
    | StepRes.next s2 => expandLoop cm fuel s2

/-- The root sentinel `"*"`. -/
def rootKey : List Char := ['*']

/-- `expand_code_macros`: start from the root macro's content
(`expect("No root macro found")` is `rootMissing`) and iterate; `none`
means the loop has not finished within `fuel` iterations. -/
def expandCodeMacros (fuel : Nat) (cm : CodeMacroCollection) : Option ExpandResult :=
  match lookupName cm rootKey with
  | none => some ExpandResult.rootMissing
  | some root => expandLoop cm fuel root.content

/-! ## tangle (src/main.rs lines 98-165) -/

/-- The observable outcome of `tangle` on one document.  `wrote out` means
`fs::write` was reached with `out`; the error constructors are the
`Err(CyclicInclusion)` return and the three panics; `none` (at the
`Option` level) means the expansion loop is still running. -/
inductive TangleOutcome
  | wrote (out : List Char)
  | cyclicInclusion
  | undefinedFragment (invoker missing : List Char)
  | rootMissing
  | usedNotDefined
deriving DecidableEq

def tangle (fuel : Nat) (texts : List (List Char)) : Option TangleOutcome :=
  let cm := extractMacros texts
  match linkEdges cm with
  | Except.error e => some (TangleOutcome.undefinedFragment e.1 e.2)
  | Except.ok es =>
    if isCyclicDirected es then some TangleOutcome.cyclicInclusion
    else
      match expandCodeMacros fuel cm with
      | none => none
      | some (ExpandResult.ok out) => some (TangleOutcome.wrote out)
      | some ExpandResult.rootMissing => some TangleOutcome.rootMissing
      | some ExpandResult.usedNotDefined => some TangleOutcome.usedNotDefined

/-! ## Auxiliary definitions for the claims -/

/-- The name/content view of the macro table: everything the expansion
consults (the `uuid` ordinals are only graph-node keys). -/
def eraseUuids (cm : CodeMacroCollection) : List (List Char × List Char × List Char) :=
  cm.map fun e => (e.1, e.2.name, e.2.content)

/-! Concrete documents (given as the text segments of their `rust` code
blocks) used by counterexamples and witnesses. -/

/-- Root invoking `a`, where the body of `a` contains a literal `$0`
replacement-template reference. -/
def dollarTexts : List (List Char) :=
  [strL "//<<*>>=\n//<<a>>\n", strL "//<<a>>=\n$0\n"]

/-- Root invoking `a`, where the body of `a` contains a literal `$$`. -/
def dollarEscTexts : List (List Char) :=
  [strL "//<<*>>=\n//<<a>>\n", strL "//<<a>>=\n$$\n"]

/-- A single self-invoking fragment `a` (three-line cycle collapsed to a
direct self-loop); no root. -/
def cyclicTexts : List (List Char) := [strL "//<<a>>=\n//<<a>>\n"]

/-- Fragment `a` invoking itself and also the undefined `z`. -/
def undefCycTexts : List (List Char) := [strL "//<<a>>=\n//<<a>>\n//<<z>>\n"]

/-- A root whose body invokes the undefined fragment `q`. -/
def undefTexts : List (List Char) := [strL "//<<*>>=\n//<<q>>\n"]

/-- A root whose final body line is an invocation marker for the undefined
`z` but lacks the trailing newline. -/
def lastLineTexts : List (List Char) := [strL "//<<*>>=\n//<<z>>"]

def lastLineOut : List Char := strL "//*\n//<<z>>"

/-- The lines making up the intermediate states of the diverging expansion
of `dollarTexts`. -/
def lineStar : List Char := ['/', '/', '*', '\n']

def lineA : List Char := ['/', '/', 'a', '\n']

def markerA : List Char := ['/', '/', '<', '<', 'a', '>', '>', '\n']

def nameA : List Char := ['a']

/-- State of the expansion loop on `dollarTexts` after `n` iterations:
each round re-creates the `//<<a>>` marker through the `$0` reference. -/
def c1State (n : Nat) : List Char :=
  lineStar ++ (repChunk n lineA ++ (markerA ++ List.replicate n '\n'))

deriving instance DecidableEq for Except

/-! ## Helper lemmas: the header matcher -/

theorem tryFromText_cons_ne (c : Char) (s : List Char) (hc : ¬ c = '/') :
    tryFromText (c :: s) = none := by
  cases s with
  | nil => rfl
  | cons d t => simp [tryFromText, matchHeader, hc]

theorem matchHeader_shape (text nm : List Char) (h : matchHeader text = some nm) :
    ∃ t, text = '/' :: '/' :: t ∧ headerBody t = some nm := by
  match text with
  | [] => exact Option.noConfusion h
  | [c] => exact Option.noConfusion h
  | c :: d :: t =>
    rw [show matchHeader (c :: d :: t) =
          (if c = '/' ∧ d = '/' then headerBody t else none) from rfl] at h
    split at h
    · next hcd => exact ⟨t, by rw [hcd.1, hcd.2], h⟩
    · exact Option.noConfusion h

theorem headerTail_name (rol nm : List Char) (h : headerTail rol = some nm) :
    nm ≠ [] ∧ ∀ c, c ∈ nm → c ∈ rol := by
  unfold headerTail at h
  split at h
  · next e1 e2 e3 revNm heq =>
    split at h
    · next hcond =>
      obtain rfl : revNm.reverse = nm := Option.some.inj h
      refine ⟨by simpa using hcond.2.2.2, fun c hc => ?_⟩
      have h1 : c ∈ revNm := List.mem_reverse.mp hc
      have h2 : c ∈ (stripTrailingWs rol).reverse := by
        rw [heq]; exact List.mem_cons_of_mem _ (List.mem_cons_of_mem _ (List.mem_cons_of_mem _ h1))
      have h3 : c ∈ stripTrailingWs rol := List.mem_reverse.mp h2
      have h4 : c ∈ rol.reverse.dropWhile isWs := by
        unfold stripTrailingWs at h3; exact List.mem_reverse.mp h3
      exact List.mem_reverse.mp ((List.dropWhile_sublist isWs).subset h4)
    · exact Option.noConfusion h
  · exact Option.noConfusion h

theorem headerBody_name (s1 nm : List Char) (h : headerBody s1 = some nm) :
    nm ≠ [] ∧ '\n' ∉ nm := by
  unfold headerBody at h
  split at h
  · next d1 d2 s3 heq =>
    split at h
    · next hdd =>
      split at h
      · next e rest heq2 =>
        obtain ⟨hne, hmem⟩ := headerTail_name _ nm h
        refine ⟨hne, fun hc => ?_⟩
        have := List.mem_takeWhile_imp (hmem '\n' hc)
        simp at this
      · exact Option.noConfusion h
    · exact Option.noConfusion h
  · exact Option.noConfusion h

/-- C9: a tagged code block whose text begins with a whitespace character
(in particular, any leading whitespace before the `//` of an otherwise
well-formed fragment header) produces no fragment, because
`MACRO_IDENT_RE` is anchored at the start of the segment. -/
theorem c9_header_anchored (c : Char) (s : List Char) (h : isWs c = true) :
    tryFromText (c :: s) = none := by
  apply tryFromText_cons_ne
  intro hc
  subst hc
  exact absurd h (by decide)

theorem c9_witness : tryFromText (strL " //<<a>>=\nx\n") = none :=
  c9_header_anchored ' ' (strL "//<<a>>=\nx\n") (by decide)

/-- C8 (amended): a fragment successfully produced by the extractor has a
non-empty name containing no newline; the name can, however, contain the
delimiter characters, because the greedy `.+` of the header pattern
captures the longest span ending before the final `>>=` of the line. -/
theorem c8_amended (text : List Char) (mac : CodeMacro)
    (h : tryFromText text = some mac) : mac.name ≠ [] ∧ '\n' ∉ mac.name := by
  unfold tryFromText at h
  cases hm : matchHeader text with
  | none => rw [hm] at h; exact Option.noConfusion h
  | some nm =>
    rw [hm] at h
    obtain rfl : CodeMacro.mk nm
        (replaceAll text ('<' :: '<' :: (nm ++ ['>', '>', '='])) nm) 0 = mac :=
      Option.some.inj h
    obtain ⟨t, _, hb⟩ := matchHeader_shape text nm hm
    exact headerBody_name t nm hb

/-- C8 counterexample: the extractor accepts `//<<a>>b>>=` and produces the
name `a>>b`, which contains the `>>` delimiter. -/
theorem c8_counterexample :
    tryFromText (strL "//<<a>>b>>=\n") =
      some { name := strL "a>>b", content := strL "//a>>b\n", uuid := 0 } ∧
    '>' ∈ (strL "a>>b") := by decide

theorem c8_witness : (strL "a>>b") ≠ [] ∧ '\n' ∉ (strL "a>>b") :=
  c8_amended (strL "//<<a>>b>>=\n")
    { name := strL "a>>b", content := strL "//a>>b\n", uuid := 0 } (by decide)

/-! ## Helper lemmas: replaceAll -/

theorem isPrefixOf_lt_slash (q s : List Char) :
    ('<' :: q).isPrefixOf ('/' :: s) = false := rfl

theorem replaceAllAux_cons_not (pat rep : List Char) (f : Nat) (c : Char)
    (s : List Char) (h : pat.isPrefixOf (c :: s) = false) :
    replaceAllAux pat rep (f + 1) (c :: s) = c :: replaceAllAux pat rep f s := by
  simp [replaceAllAux, h]

/-- C6 (amended): the stored content is the original text with **every**
occurrence of the literal header substring `<<name>>=` replaced by the
bare name; the content still begins with the `//` comment marker (the
text before the `<<` is untouched), not with the name itself. -/
theorem c6_amended (text : List Char) (mac : CodeMacro)
    (h : tryFromText text = some mac) :
    mac.content = replaceAll text ('<' :: '<' :: (mac.name ++ ['>', '>', '='])) mac.name ∧
    ∃ t, mac.content = '/' :: '/' :: t := by
  unfold tryFromText at h
  cases hm : matchHeader text with
  | none => rw [hm] at h; exact Option.noConfusion h
  | some nm =>
    rw [hm] at h
    obtain rfl : CodeMacro.mk nm
        (replaceAll text ('<' :: '<' :: (nm ++ ['>', '>', '='])) nm) 0 = mac :=
      Option.some.inj h
    obtain ⟨t, ht, _⟩ := matchHeader_shape text nm hm
    refine ⟨rfl, ?_⟩
    subst ht
    show ∃ t2, replaceAll ('/' :: '/' :: t)
        ('<' :: '<' :: (nm ++ ['>', '>', '='])) nm = '/' :: '/' :: t2
    unfold replaceAll
    rw [show ('/' :: '/' :: t).length + 1 = (t.length + 1) + 1 + 1 by simp]
    rw [replaceAllAux_cons_not _ _ _ _ _ (isPrefixOf_lt_slash _ _)]
    rw [replaceAllAux_cons_not _ _ _ _ _ (isPrefixOf_lt_slash _ _)]
    exact ⟨_, rfl⟩

/-- C6 counterexample: for the block `//<<a>>=\nx\n` the stored content is
`//a\nx\n`, which does not begin with the name `a`. -/
theorem c6_counterexample :
    tryFromText (strL "//<<a>>=\nx\n") =
      some { name := strL "a", content := strL "//a\nx\n", uuid := 0 } ∧
    (strL "a").isPrefixOf (strL "//a\nx\n") = false := by decide

theorem c6_witness :
    (strL "//a\nwaw\n" : List Char) =
      replaceAll (strL "//<<a>>=\nw<<a>>=w\n")
        ('<' :: '<' :: ((strL "a") ++ ['>', '>', '='])) (strL "a") ∧
    ∃ t, (strL "//a\nwaw\n" : List Char) = '/' :: '/' :: t :=
  c6_amended (strL "//<<a>>=\nw<<a>>=w\n")
    { name := strL "a", content := strL "//a\nwaw\n", uuid := 0 } (by decide)

/-! ## C2: cycles -/

/-- C2 (amended): when graph building succeeds (every invocation in every
stored fragment resolves) and the dependency graph is cyclic, `tangle`
returns `CyclicInclusion` before any expansion, for every fuel, and never
writes an output. -/
theorem c2_amended (texts : List (List Char)) (es : List (Nat × Nat))
    (h1 : linkEdges (extractMacros texts) = Except.ok es)
    (h2 : isCyclicDirected es = true) :
    ∀ fuel, tangle fuel texts = some TangleOutcome.cyclicInclusion ∧
      ∀ out, tangle fuel texts ≠ some (TangleOutcome.wrote out) := by
  intro fuel
  have h : tangle fuel texts = some TangleOutcome.cyclicInclusion := by
    simp [tangle, h1, h2]
  exact ⟨h, fun out hw => by rw [h] at hw; exact TangleOutcome.noConfusion (Option.some.inj hw)⟩

theorem c2_witness :
    tangle 0 cyclicTexts = some TangleOutcome.cyclicInclusion :=
  (c2_amended cyclicTexts [(0, 0)] (by decide) (by decide) 0).1

/-- C2 counterexample: in `undefCycTexts` the fragment `a` reaches itself
through a resolved invocation edge, so the document's reference graph has
a directed cycle; but its body also invokes the undefined `z`, and the
`unwrap` panic of graph building preempts the cycle check, so `tangle`
never returns `CyclicInclusion` on this document. -/
theorem c2_counterexample :
    isCyclicDirected (resolvedEdges (extractMacros undefCycTexts)) = true ∧
    (∀ fuel, tangle fuel undefCycTexts =
      some (TangleOutcome.undefinedFragment (strL "a") (strL "z"))) ∧
    ∀ fuel, tangle fuel undefCycTexts ≠ some TangleOutcome.cyclicInclusion := by
  refine ⟨by decide, fun fuel => rfl, fun fuel hc => ?_⟩
  rw [show tangle fuel undefCycTexts =
      some (TangleOutcome.undefinedFragment (strL "a") (strL "z")) from rfl] at hc
  exact TangleOutcome.noConfusion (Option.some.inj hc)

/-! ## C4: the missing root -/

/-- C4 (amended): when graph building succeeds and the graph is acyclic, a
macro table without the root sentinel `*` makes `tangle` fail with the
`rootMissing` panic (the `expect("No root macro found")`), for every fuel;
in particular this holds for the empty document. -/
theorem c4_amended (texts : List (List Char)) (es : List (Nat × Nat))
    (h1 : linkEdges (extractMacros texts) = Except.ok es)
    (h2 : isCyclicDirected es = false)
    (h3 : lookupName (extractMacros texts) rootKey = none) :
    ∀ fuel, tangle fuel texts = some TangleOutcome.rootMissing := by
  intro fuel
  simp [tangle, expandCodeMacros, h1, h2, h3]

theorem c4_witness : tangle 0 ([] : List (List Char)) = some TangleOutcome.rootMissing :=
  c4_amended [] [] (by decide) (by decide) (by decide) 0

/-- C4 counterexample: `cyclicTexts` has no root fragment, yet `tangle`
fails with `CyclicInclusion`, not `RootMissing`, because the cycle check
runs before the root lookup. -/
theorem c4_counterexample :
    lookupName (extractMacros cyclicTexts) rootKey = none ∧
    (∀ fuel, tangle fuel cyclicTexts = some TangleOutcome.cyclicInclusion) ∧
    ∀ fuel, tangle fuel cyclicTexts ≠ some TangleOutcome.rootMissing := by
  refine ⟨by decide, fun fuel => rfl, fun fuel hc => ?_⟩
  rw [show tangle fuel cyclicTexts = some TangleOutcome.cyclicInclusion from rfl] at hc
  exact TangleOutcome.noConfusion (Option.some.inj hc)

/-! ## C3: undefined invocations -/

theorem edgesForAux_error_mem (cm : CodeMacroCollection) (mn : List Char) (mu : Nat)
    (caps : List InvCap) (i ms : List Char)
    (h : edgesForAux cm mn mu caps = Except.error (i, ms)) :
    i = mn ∧ lookupName cm ms = none ∧ ∃ c ∈ caps, c.name = ms := by
  induction caps with
  | nil => exact Except.noConfusion h
  | cons cap rest ih =>
    unfold edgesForAux at h
    cases hl : lookupName cm cap.name with
    | none =>
      rw [hl] at h
      obtain ⟨h1, h2⟩ := Prod.mk.injEq .. ▸ Except.error.inj h
      subst h1; subst h2
      exact ⟨rfl, hl, cap, List.mem_cons_self _ _, rfl⟩
    | some m2 =>
      rw [hl] at h
      cases he : edgesForAux cm mn mu rest with
      | error err =>
        rw [he] at h
        obtain rfl : err = (i, ms) := Except.error.inj h
        obtain ⟨g1, g2, c, hc, hn⟩ := ih he
        exact ⟨g1, g2, c, List.mem_cons_of_mem _ hc, hn⟩
      | ok es => rw [he] at h; exact Except.noConfusion h

theorem edgesForAux_error_of_bad (cm : CodeMacroCollection) (mn : List Char) (mu : Nat)
    (caps : List InvCap) (cap : InvCap) (hc : cap ∈ caps)
    (hl : lookupName cm cap.name = none) :
    ∃ err, edgesForAux cm mn mu caps = Except.error err := by
  induction caps with
  | nil => cases hc
  | cons c0 rest ih =>
    unfold edgesForAux
    cases hl0 : lookupName cm c0.name with
    | none => exact ⟨(mn, c0.name), rfl⟩
    | some m2 =>
      rcases List.mem_cons.mp hc with rfl | hmem
      · rw [hl0] at hl; exact Option.noConfusion hl
      · obtain ⟨err, he⟩ := ih hmem
        rw [he]
        exact ⟨err, rfl⟩

theorem linkEdgesAux_error_mem (cm : CodeMacroCollection)
    (pend : List (List Char × CodeMacro)) (i ms : List Char)
    (h : linkEdgesAux cm pend = Except.error (i, ms)) :
    lookupName cm ms = none ∧
      ∃ e ∈ pend, e.2.name = i ∧ ∃ c ∈ invCaptures e.2.content, c.name = ms := by
  induction pend with
  | nil => exact Except.noConfusion h
  | cons e0 rest ih =>
    unfold linkEdgesAux at h
    cases hf : edgesForAux cm e0.2.name e0.2.uuid (invCaptures e0.2.content) with
    | error err =>
      rw [hf] at h
      obtain rfl : err = (i, ms) := Except.error.inj h
      obtain ⟨g1, g2, c, hc, hn⟩ := edgesForAux_error_mem cm _ _ _ i ms hf
      exact ⟨g2, e0, List.mem_cons_self _ _, g1.symm, c, hc, hn⟩
    | ok es1 =>
      rw [hf] at h
      cases hr : linkEdgesAux cm rest with
      | error err =>
        rw [hr] at h
        obtain rfl : err = (i, ms) := Except.error.inj h
        obtain ⟨g2, e, he, g1, c, hc, hn⟩ := ih hr
        exact ⟨g2, e, List.mem_cons_of_mem _ he, g1, c, hc, hn⟩
      | ok es2 => rw [hr] at h; exact Except.noConfusion h

theorem linkEdgesAux_error_of_bad (cm : CodeMacroCollection)
    (pend : List (List Char × CodeMacro)) (e : List Char × CodeMacro) (cap : InvCap)
    (he : e ∈ pend) (hc : cap ∈ invCaptures e.2.content)
    (hl : lookupName cm cap.name = none) :
    ∃ err, linkEdgesAux cm pend = Except.error err := by
  induction pend with
  | nil => cases he
  | cons e0 rest ih =>
    unfold linkEdgesAux
    cases hf : edgesForAux cm e0.2.name e0.2.uuid (invCaptures e0.2.content) with
    | error err => exact ⟨err, rfl⟩
    | ok es1 =>
      rcases List.mem_cons.mp he with rfl | hmem
      · obtain ⟨err, hh⟩ := edgesForAux_error_of_bad cm e.2.name e.2.uuid _ cap hc hl
        rw [hh] at hf; exact Except.noConfusion hf
      · obtain ⟨err, hh⟩ := ih hmem
        rw [hh]
        exact ⟨err, rfl⟩

/-- C3: if any stored fragment's content has an invocation capture whose
name is absent from the macro table, `tangle` fails with an
`undefinedFragment` outcome — naming an invoking fragment of the table and
a genuinely missing name — for every fuel, and writes nothing (the
`unwrap` panic fires during graph building, before the cycle check and
before expansion). -/
theorem c3_undefined (texts : List (List Char)) (e : List Char × CodeMacro)
    (cap : InvCap) (h1 : e ∈ extractMacros texts)
    (h2 : cap ∈ invCaptures e.2.content)
    (h3 : lookupName (extractMacros texts) cap.name = none) :
    ∃ inv missing,
      lookupName (extractMacros texts) missing = none ∧
      (∃ e2 ∈ extractMacros texts, e2.2.name = inv ∧
        ∃ c ∈ invCaptures e2.2.content, c.name = missing) ∧
      ∀ fuel, tangle fuel texts =
        some (TangleOutcome.undefinedFragment inv missing) := by
  obtain ⟨err, herr⟩ :=
    linkEdgesAux_error_of_bad (extractMacros texts) (extractMacros texts) e cap h1 h2 h3
  obtain ⟨i, ms⟩ := err
  obtain ⟨g2, e2, he2, g1, c, hc, hn⟩ :=
    linkEdgesAux_error_mem (extractMacros texts) (extractMacros texts) i ms herr
  refine ⟨i, ms, g2, ⟨e2, he2, g1, c, hc, hn⟩, fun fuel => ?_⟩
  have hlink : linkEdges (extractMacros texts) = Except.error (i, ms) := herr
  simp only [tangle, hlink]

theorem c3_witness :
    ∃ inv missing,
      lookupName (extractMacros undefTexts) missing = none ∧
      (∃ e2 ∈ extractMacros undefTexts, e2.2.name = inv ∧
        ∃ c ∈ invCaptures e2.2.content, c.name = missing) ∧
      ∀ fuel, tangle fuel undefTexts =
        some (TangleOutcome.undefinedFragment inv missing) :=
  c3_undefined undefTexts
    (strL "*", { name := strL "*", content := strL "//*\n//<<q>>\n", uuid := 0 })
    { pre := strL "//*\n", indent := 0, matched := strL "//<<q>>\n",
      name := strL "q", rest := [] }
    (by decide) (by decide) (by decide)

/-! ## C5: one expansion step -/

theorem expandTemplateAux_id (g0 g1 g2 : List Char) (f : Nat) (rep : List Char)
    (h : '$' ∉ rep) : expandTemplateAux g0 g1 g2 f rep = rep := by
  induction f generalizing rep with
  | zero => rfl
  | succ f ih =>
    cases rep with
    | nil => rfl
    | cons c rest =>
      have hc : ¬ c = '$' := fun hcc => h (hcc ▸ List.mem_cons_self c rest)
      simp [expandTemplateAux, hc, ih rest (fun hm => h (List.mem_cons_of_mem _ hm))]

theorem mem_splitNl (s : List Char) (l : List Char) (c : Char)
    (hl : l ∈ splitNl s) (hc : c ∈ l) : c ∈ s := by
  induction s generalizing l with
  | nil =>
    simp [splitNl] at hl
    subst hl
    cases hc
  | cons a t ih =>
    unfold splitNl at hl
    by_cases ha : a = '\n'
    · rw [if_pos ha] at hl
      rcases List.mem_cons.mp hl with rfl | hmem
      · cases hc
      · exact List.mem_cons_of_mem _ (ih _ hmem hc)
    · rw [if_neg ha] at hl
      cases hr : splitNl t with
      | nil =>
        rw [hr] at hl
        simp at hl
        subst hl
        simp at hc
        subst hc
        exact List.mem_cons_self _ _
      | cons l0 ls =>
        rw [hr] at hl
        rcases List.mem_cons.mp hl with rfl | hmem
        · rcases List.mem_cons.mp hc with rfl | hc0
          · exact List.mem_cons_self _ _
          · have h0 : l0 ∈ splitNl t := by rw [hr]; exact List.mem_cons_self _ _
            exact List.mem_cons_of_mem _ (ih l0 h0 hc0)
        · have h0 : l ∈ splitNl t := by rw [hr]; exact List.mem_cons_of_mem _ hmem
          exact List.mem_cons_of_mem _ (ih l h0 hc)

theorem mem_stripTrailingCr (l : List Char) (c : Char)
    (h : c ∈ stripTrailingCr l) : c ∈ l := by
  unfold stripTrailingCr at h
  by_cases he : l.getLast? = some '\r'
  · rw [if_pos he] at h
    exact (List.dropLast_sublist l).subset h
  · rw [if_neg he] at h; exact h

theorem mem_rustLines (s l : List Char) (c : Char)
    (hl : l ∈ rustLines s) (hc : c ∈ l) : c ∈ s := by
  unfold rustLines at hl
  cases hr : (splitNl s).reverse with
  | nil => rw [hr] at hl; cases hl
  | cons last revInit =>
    rw [hr] at hl
    rcases List.mem_append.mp hl with hm | hm
    · obtain ⟨l0, hl0, rfl⟩ := List.mem_map.mp hm
      have h1 : l0 ∈ (splitNl s).reverse := by
        rw [hr]; exact List.mem_cons_of_mem _ (List.mem_reverse.mp hl0)
      exact mem_splitNl s l0 c (List.mem_reverse.mp h1) (mem_stripTrailingCr l0 c hc)
    · by_cases hlast : last = []
      · rw [if_pos hlast] at hm; cases hm
      · rw [if_neg hlast] at hm
        obtain rfl : l = last := by simpa using hm
        have h1 : l ∈ (splitNl s).reverse := by rw [hr]; exact List.mem_cons_self _ _
        exact mem_splitNl s l c (List.mem_reverse.mp h1) hc

theorem mem_repChunk (n : Nat) (l : List Char) (c : Char)
    (h : c ∈ repChunk n l) : c ∈ l := by
  induction n with
  | zero => cases h
  | succ n ih =>
    rcases List.mem_append.mp h with h1 | h1
    · exact h1
    · exact ih h1

theorem noDollar_prependIndents (s : List Char) (k : Nat) (h : '$' ∉ s) :
    '$' ∉ prependIndents s k := by
  intro hmem
  unfold prependIndents at hmem
  obtain ⟨piece, hp, hcp⟩ := List.mem_flatten.mp hmem
  obtain ⟨l, hlmem, rfl⟩ := List.mem_map.mp hp
  rcases List.mem_append.mp hcp with h1 | h1
  · rcases List.mem_append.mp h1 with h2 | h2
    · exact absurd (mem_repChunk k indentUnit '$' h2) (by decide)
    · exact h (mem_rustLines s l '$' hlmem h2)
  · simp at h1

/-- C5 (amended): a loop iteration whose first invocation-marker match
captures `L` leading spaces and the name of a stored fragment whose body
contains no `$` character replaces the matched region with exactly the
fragment's body, every line of which is prefixed by `L / 4` (integer
division, rounding down) copies of the four-space indentation unit.  (For
bodies containing `$`, the spliced text is the replacement-template
expansion of the indented body instead; see the counterexample.) -/
theorem c5_amended (cm : CodeMacroCollection) (s : List Char) (cap : InvCap)
    (mac : CodeMacro) (h1 : invFind s = some cap)
    (h2 : lookupName cm cap.name = some mac) (h3 : '$' ∉ mac.content) :
    expandStep cm s = StepRes.next (cap.pre ++
      List.flatten ((rustLines mac.content).map fun l =>
        repChunk (cap.indent / 4) indentUnit ++ l ++ ['\n']) ++ cap.rest) := by
  simp only [expandStep, h1, h2]
  have hid : expandTemplate cap.matched (List.replicate cap.indent ' ') cap.name
      (prependIndents mac.content (cap.indent / 4)) =
      prependIndents mac.content (cap.indent / 4) :=
    expandTemplateAux_id _ _ _ _ _ (noDollar_prependIndents _ _ h3)
  rw [hid]
  rfl

theorem c5_witness :
    expandStep [(strL "b", { name := strL "b", content := strL "x\ny", uuid := 3 })]
        (strL "      //<<b>>\n") =
      StepRes.next (([] : List Char) ++
        List.flatten ((rustLines (strL "x\ny")).map fun l =>
          repChunk (6 / 4) indentUnit ++ l ++ ['\n']) ++ ([] : List Char)) :=
  c5_amended [(strL "b", { name := strL "b", content := strL "x\ny", uuid := 3 })]
    (strL "      //<<b>>\n")
    { pre := [], indent := 6, matched := strL "      //<<b>>\n",
      name := strL "b", rest := [] }
    { name := strL "b", content := strL "x\ny", uuid := 3 }
    (by decide) (by decide) (by decide)

/-- C5 counterexample: when the invoked body contains `$` (here the body
`//a\n$$\n` of fragment `a`), `Regex::replace` template-expands the
replacement (`$$` becomes `$`), so the matched line is *not* replaced by
the indented body verbatim, contradicting the claim as stated. -/
theorem c5_counterexample :
    lookupName (extractMacros dollarEscTexts) rootKey =
      some { name := strL "*", content := strL "//*\n//<<a>>\n", uuid := 0 } ∧
    invFind (strL "//*\n//<<a>>\n") =
      some { pre := strL "//*\n", indent := 0, matched := strL "//<<a>>\n",
             name := strL "a", rest := [] } ∧
    lookupName (extractMacros dollarEscTexts) (strL "a") =
      some { name := strL "a", content := strL "//a\n$$\n", uuid := 1 } ∧
    expandStep (extractMacros dollarEscTexts) (strL "//*\n//<<a>>\n") =
      StepRes.next (strL "//*\n//a\n$\n") ∧
    strL "//*\n//a\n$\n" ≠
      strL "//*\n" ++ prependIndents (strL "//a\n$$\n") (0 / 4) ++ [] := by decide

/-! ## C10: markers require a trailing newline -/

theorem invTail_mem_nl (s4 : List Char) (r : List Char × List Char × List Char)
    (h : invTail s4 = some r) : '\n' ∈ s4 := by
  unfold invTail at h
  cases hd : s4.dropWhile (fun c => c ≠ '\n') with
  | nil => simp only [hd] at h; exact Option.noConfusion h
  | cons e rest =>
    simp only [hd] at h
    by_cases he : e = '\n'
    · subst he
      have h1 : '\n' ∈ s4.dropWhile (fun c => c ≠ '\n') := by
        rw [hd]; exact List.mem_cons_self _ _
      exact (List.dropWhile_sublist _).subset h1
    · rw [if_neg he] at h; exact Option.noConfusion h

theorem matchInvAt_mem_nl (s : List Char) (r : Nat × List Char × List Char × List Char)
    (h : matchInvAt s = some r) : '\n' ∈ s := by
  unfold matchInvAt at h
  cases h1 : s.dropWhile (fun c => c = ' ') with
  | nil => simp only [h1] at h; exact Option.noConfusion h
  | cons c1 s1 =>
    cases s1 with
    | nil => simp only [h1] at h; exact Option.noConfusion h
    | cons c2 s2 =>
      simp only [h1] at h
      by_cases h12 : c1 = '/' ∧ c2 = '/'
      · rw [if_pos h12] at h
        cases h2 : s2.dropWhile isWs with
        | nil => simp only [h2] at h; exact Option.noConfusion h
        | cons d1 s3 =>
          cases s3 with
          | nil => simp only [h2] at h; exact Option.noConfusion h
          | cons d2 s4 =>
            simp only [h2] at h
            by_cases h34 : d1 = '<' ∧ d2 = '<'
            · rw [if_pos h34] at h
              cases hi : invTail s4 with
              | none => rw [hi] at h; exact Option.noConfusion h
              | some rr =>
                have hnl : '\n' ∈ s4 := invTail_mem_nl s4 rr hi
                have hnl2 : '\n' ∈ s2.dropWhile isWs := by
                  rw [h2]
                  exact List.mem_cons_of_mem _ (List.mem_cons_of_mem _ hnl)
                have hnl3 : '\n' ∈ s.dropWhile (fun c => c = ' ') := by
                  rw [h1]
                  exact List.mem_cons_of_mem _ (List.mem_cons_of_mem _
                    ((List.dropWhile_sublist isWs).subset hnl2))
                exact (List.dropWhile_sublist _).subset hnl3
            · rw [if_neg h34] at h; exact Option.noConfusion h
      · rw [if_neg h12] at h; exact Option.noConfusion h

theorem invFindAux_none_of_no_nl (flag : Bool) (s : List Char) (h : '\n' ∉ s) :
    invFindAux flag s = none := by
  induction s generalizing flag with
  | nil => rfl
  | cons c t ih =>
    have hm : matchInvAt (c :: t) = none := by
      cases hmm : matchInvAt (c :: t) with
      | none => rfl
      | some r => exact absurd (matchInvAt_mem_nl _ r hmm) h
    have ht : '\n' ∉ t := fun hx => h (List.mem_cons_of_mem _ hx)
    have hrec := ih (decide (c = '\n')) ht
    cases flag <;> simp [invFindAux, hm, hrec]

/-- C10: both invocation patterns require a terminating `'\n'`, so an
invocation-marker line that ends the text without a trailing newline is
never matched (first conjunct: a text with no newline at all has no
match).  On the concrete document whose root body ends with such a line
invoking the undefined `z`: no dependency edge is built, `z` is never
checked for definedness (graph building succeeds with no edges even
though `z` is not in the table), and the marker text remains verbatim at
the end of the written output. -/
theorem c10_needs_newline :
    (∀ s, '\n' ∉ s → invFind s = none) ∧
    (∀ fuel, tangle (fuel + 1) lastLineTexts = some (TangleOutcome.wrote lastLineOut)) ∧
    invCaptures lastLineOut = [] ∧
    lookupName (extractMacros lastLineTexts) (strL "z") = none ∧
    linkEdges (extractMacros lastLineTexts) = Except.ok [] ∧
    lastLineOut = strL "//*\n" ++ strL "//<<z>>" := by
  exact ⟨fun s h => invFindAux_none_of_no_nl true s h, fun fuel => rfl,
    by decide, by decide, by decide, by decide⟩

theorem c10_witness :
    invFind (strL "abc") = none ∧
    tangle 1 lastLineTexts = some (TangleOutcome.wrote lastLineOut) :=
  ⟨c10_needs_newline.1 (strL "abc") (by decide), c10_needs_newline.2.1 0⟩

/-! ## C7: first definition wins -/

theorem containsName_eq_of_erase (T1 T2 : CodeMacroCollection)
    (h : eraseUuids T1 = eraseUuids T2) (n : List Char) :
    containsName T1 n = containsName T2 n := by
  induction T1 generalizing T2 with
  | nil =>
    cases T2 with
    | nil => rfl
    | cons e r => simp [eraseUuids] at h
  | cons e1 r1 ih =>
    cases T2 with
    | nil => simp [eraseUuids] at h
    | cons e2 r2 =>
      simp only [eraseUuids, List.map_cons, List.cons.injEq, Prod.mk.injEq] at h
      obtain ⟨⟨hk, hnm, hct⟩, ht⟩ := h
      unfold containsName
      rw [hk]
      by_cases hn : e2.1 = n
      · simp [hn]
      · simp [hn, ih r2 ht]

theorem lookupContent_eq_of_erase (T1 T2 : CodeMacroCollection)
    (h : eraseUuids T1 = eraseUuids T2) (n : List Char) :
    Option.map (fun m => m.content) (lookupName T1 n) =
      Option.map (fun m => m.content) (lookupName T2 n) := by
  induction T1 generalizing T2 with
  | nil =>
    cases T2 with
    | nil => rfl
    | cons e r => simp [eraseUuids] at h
  | cons e1 r1 ih =>
    cases T2 with
    | nil => simp [eraseUuids] at h
    | cons e2 r2 =>
      simp only [eraseUuids, List.map_cons, List.cons.injEq, Prod.mk.injEq] at h
      obtain ⟨⟨hk, hnm, hct⟩, ht⟩ := h
      unfold lookupName
      rw [hk]
      by_cases hn : e2.1 = n
      · simp [hn, hct]
      · simp [hn, ih r2 ht]

theorem expandStep_congr (T1 T2 : CodeMacroCollection)
    (h : ∀ n, Option.map (fun m => m.content) (lookupName T1 n) =
      Option.map (fun m => m.content) (lookupName T2 n)) (s : List Char) :
    expandStep T1 s = expandStep T2 s := by
  unfold expandStep
  cases hf : invFind s with
  | none => simp only [hf]
  | some cap =>
    simp only [hf]
    have hc := h cap.name
    cases h1 : lookupName T1 cap.name with
    | none =>
      cases h2 : lookupName T2 cap.name with
      | none => simp only [h1, h2]
      | some m2 => rw [h1, h2] at hc; exact Option.noConfusion hc
    | some m1 =>
      cases h2 : lookupName T2 cap.name with
      | none => rw [h1, h2] at hc; exact Option.noConfusion hc
      | some m2 =>
        rw [h1, h2] at hc
        have hcc : m1.content = m2.content := Option.some.inj hc
        simp only [h1, h2, hcc]

theorem expandLoop_congr (T1 T2 : CodeMacroCollection)
    (h : ∀ n, Option.map (fun m => m.content) (lookupName T1 n) =
      Option.map (fun m => m.content) (lookupName T2 n)) :
    ∀ fuel s, expandLoop T1 fuel s = expandLoop T2 fuel s := by
  intro fuel
  induction fuel with
  | zero => intro s; rfl
  | succ f ih =>
    intro s
    unfold expandLoop
    rw [expandStep_congr T1 T2 h s]
    cases hsr : expandStep T2 s with
    | done out => simp only [hsr]
    | stuck => simp only [hsr]
    | next s2 => simp only [hsr]; exact ih s2

theorem expandCodeMacros_congr (T1 T2 : CodeMacroCollection)
    (h : ∀ n, Option.map (fun m => m.content) (lookupName T1 n) =
      Option.map (fun m => m.content) (lookupName T2 n)) (fuel : Nat) :
    expandCodeMacros fuel T1 = expandCodeMacros fuel T2 := by
  unfold expandCodeMacros
  have hc := h rootKey
  cases h1 : lookupName T1 rootKey with
  | none =>
    cases h2 : lookupName T2 rootKey with
    | none => simp only [h1, h2]
    | some m2 => rw [h1, h2] at hc; exact Option.noConfusion hc
  | some m1 =>
    cases h2 : lookupName T2 rootKey with
    | none => rw [h1, h2] at hc; exact Option.noConfusion hc
    | some m2 =>
      rw [h1, h2] at hc
      have hcc : m1.content = m2.content := Option.some.inj hc
      simp only [h1, h2, hcc]
      exact expandLoop_congr T1 T2 h fuel m2.content

theorem extractStep_erase (s1 s2 : CodeMacroCollection × Nat)
    (h : eraseUuids s1.1 = eraseUuids s2.1) (t : List Char) :
    eraseUuids (extractStep s1 t).1 = eraseUuids (extractStep s2 t).1 := by
  unfold extractStep
  cases htf : tryFromText t with
  | none => simp only [htf]; exact h
  | some m =>
    simp only [htf]
    have hcn := containsName_eq_of_erase s1.1 s2.1 h m.name
    by_cases hc : containsName s2.1 m.name = true
    · simp only [hcn, hc, if_true]
      exact h
    · rw [Bool.not_eq_true] at hc
      simp only [hcn, hc, Bool.false_eq_true, if_false]
      simp only [eraseUuids, List.map_append, List.map_cons, List.map_nil] at h ⊢
      rw [h]

theorem extractFold_erase (ts : List (List Char)) :
    ∀ (s1 s2 : CodeMacroCollection × Nat), eraseUuids s1.1 = eraseUuids s2.1 →
    eraseUuids (List.foldl extractStep s1 ts).1 =
      eraseUuids (List.foldl extractStep s2 ts).1 := by
  induction ts with
  | nil => intro s1 s2 h; exact h
  | cons t rest ih =>
    intro s1 s2 h
    simp only [List.foldl_cons]
    exact ih (extractStep s1 t) (extractStep s2 t) (extractStep_erase s1 s2 h t)

/-- C7: discarding a redefinition (a block parsing to an already-present
name) leaves the macro table unchanged, and the expansion output of a
document containing the redefining block equals that of the document with
the block omitted (only the uuid ordinals of the later fragments shift,
and expansion never consults them). -/
theorem c7_first_wins (pre post : List (List Char)) (redef : List Char) (m : CodeMacro)
    (h1 : tryFromText redef = some m)
    (h2 : containsName (extractMacros pre) m.name = true) :
    extractMacros (pre ++ [redef]) = extractMacros pre ∧
    eraseUuids (extractMacros (pre ++ redef :: post)) =
      eraseUuids (extractMacros (pre ++ post)) ∧
    ∀ fuel, expandCodeMacros fuel (extractMacros (pre ++ redef :: post)) =
      expandCodeMacros fuel (extractMacros (pre ++ post)) := by
  have hstep : extractStep (List.foldl extractStep ([], 0) pre) redef =
      ((List.foldl extractStep ([], 0) pre).1,
       (List.foldl extractStep ([], 0) pre).2 + 1) := by
    have h2b : containsName (List.foldl extractStep ([], 0) pre).1 m.name = true := h2
    simp [extractStep, h1, h2b]
  have hc1 : extractMacros (pre ++ [redef]) = extractMacros pre := by
    unfold extractMacros
    rw [List.foldl_append]
    simp only [List.foldl_cons, List.foldl_nil]
    rw [hstep]
  have hc2 : eraseUuids (extractMacros (pre ++ redef :: post)) =
      eraseUuids (extractMacros (pre ++ post)) := by
    unfold extractMacros
    rw [List.foldl_append, List.foldl_append]
    simp only [List.foldl_cons]
    rw [hstep]
    exact extractFold_erase post _ _ rfl
  refine ⟨hc1, hc2, fun fuel => ?_⟩
  exact expandCodeMacros_congr _ _
    (fun n => lookupContent_eq_of_erase _ _ hc2 n) fuel

theorem c7_witness :
    extractMacros ([strL "//<<*>>=\nx\n"] ++ [strL "//<<*>>=\ny\n"]) =
      extractMacros [strL "//<<*>>=\nx\n"] ∧
    eraseUuids (extractMacros
        ([strL "//<<*>>=\nx\n"] ++ strL "//<<*>>=\ny\n" :: [strL "//<<b>>=\nz\n"])) =
      eraseUuids (extractMacros ([strL "//<<*>>=\nx\n"] ++ [strL "//<<b>>=\nz\n"])) ∧
    expandCodeMacros 2 (extractMacros
        ([strL "//<<*>>=\nx\n"] ++ strL "//<<*>>=\ny\n" :: [strL "//<<b>>=\nz\n"])) =
      expandCodeMacros 2 (extractMacros ([strL "//<<*>>=\nx\n"] ++ [strL "//<<b>>=\nz\n"])) := by
  have h := c7_first_wins [strL "//<<*>>=\nx\n"] [strL "//<<b>>=\nz\n"]
    (strL "//<<*>>=\ny\n") { name := strL "*", content := strL "//*\ny\n", uuid := 0 }
    (by decide) (by decide)
  exact ⟨h.1, h.2.1, h.2.2 2⟩

/-! ## C1: the `$0` divergence

On `dollarTexts` the reference graph is acyclic (`*` → `a`, and `a` has
no invocation markers: its body line `$0` is not a marker), and the root
exists; yet the expansion loop never terminates, because the replacement
string `//a\n$0\n` is template-expanded by `Regex::replace`, and `$0`
re-inserts the whole matched text `//<<a>>\n`.  The loop state after `n`
iterations is `c1State n`, and every iteration steps `c1State n` to
`c1State (n + 1)`. -/

theorem repChunk_shift (n : Nat) (l x : List Char) :
    repChunk n l ++ (l ++ x) = l ++ (repChunk n l ++ x) := by
  induction n with
  | zero => simp [repChunk]
  | succ k ih => simp only [repChunk, List.append_assoc, ih]

theorem invFindAux_skip_lineA (t : List Char) :
    invFindAux true (lineA ++ t) =
      (invFindAux true t).map fun cap => { cap with pre := lineA ++ cap.pre } := by
  have key : invFindAux true (lineA ++ t) =
      ((((invFindAux true t).map fun cap => { cap with pre := '\n' :: cap.pre }).map
        fun cap => { cap with pre := 'a' :: cap.pre }).map
        fun cap => { cap with pre := '/' :: cap.pre }).map
        fun cap => { cap with pre := '/' :: cap.pre } := rfl
  rw [key]
  cases invFindAux true t <;> rfl

theorem invFindAux_skip_lineStar (t : List Char) :
    invFindAux true (lineStar ++ t) =
      (invFindAux true t).map fun cap => { cap with pre := lineStar ++ cap.pre } := by
  have key : invFindAux true (lineStar ++ t) =
      ((((invFindAux true t).map fun cap => { cap with pre := '\n' :: cap.pre }).map
        fun cap => { cap with pre := '*' :: cap.pre }).map
        fun cap => { cap with pre := '/' :: cap.pre }).map
        fun cap => { cap with pre := '/' :: cap.pre } := rfl
  rw [key]
  cases invFindAux true t <;> rfl

theorem invFindAux_c1Mid (m : Nat) (t : List Char) :
    invFindAux true (repChunk m lineA ++ (markerA ++ t)) =
      some { pre := repChunk m lineA, indent := 0, matched := markerA,
             name := nameA, rest := t } := by
  induction m with
  | zero => rfl
  | succ k ih =>
    rw [show repChunk (k + 1) lineA ++ (markerA ++ t) =
          lineA ++ (repChunk k lineA ++ (markerA ++ t)) by
        simp [repChunk, List.append_assoc]]
    rw [invFindAux_skip_lineA, ih]
    rfl

theorem invFind_c1State (n : Nat) :
    invFind (c1State n) =
      some { pre := lineStar ++ repChunk n lineA, indent := 0, matched := markerA,
             name := nameA, rest := List.replicate n '\n' } := by
  unfold invFind c1State
  rw [invFindAux_skip_lineStar, invFindAux_c1Mid]
  rfl

theorem expandStep_c1State (n : Nat) :
    expandStep (extractMacros dollarTexts) (c1State n) = StepRes.next (c1State (n + 1)) := by
  have hl : lookupName (extractMacros dollarTexts) nameA =
      some { name := nameA, content := strL "//a\n$0\n", uuid := 1 } := by decide
  have hT : expandTemplate markerA (List.replicate 0 ' ') nameA
      (prependIndents (strL "//a\n$0\n") (0 / 4)) = lineA ++ (markerA ++ ['\n']) := by decide
  simp only [expandStep, invFind_c1State, hl, hT]
  show StepRes.next ((lineStar ++ repChunk n lineA) ++ (lineA ++ (markerA ++ ['\n'])) ++
      List.replicate n '\n') = StepRes.next (c1State (n + 1))
  unfold c1State
  simp only [List.append_assoc, List.cons_append, List.nil_append, List.replicate_succ]
  rw [show repChunk (n + 1) lineA = lineA ++ repChunk n lineA from rfl]
  simp only [List.append_assoc]
  rw [repChunk_shift]

theorem expandLoop_c1_none :
    ∀ fuel n, expandLoop (extractMacros dollarTexts) fuel (c1State n) = none := by
  intro fuel
  induction fuel with
  | zero => intro n; rfl
  | succ f ih =>
    intro n
    simp only [expandLoop, expandStep_c1State]
    exact ih (n + 1)

theorem c1_expand_none (fuel : Nat) :
    expandCodeMacros fuel (extractMacros dollarTexts) = none := by
  have h0 : expandCodeMacros fuel (extractMacros dollarTexts) =
      expandLoop (extractMacros dollarTexts) fuel (c1State 0) := rfl
  rw [h0]
  exact expandLoop_c1_none fuel 0

/-- C1 (code bug): on `dollarTexts` the macro table contains the root
`*`, graph building succeeds with the single edge `* → a`, and the graph
is acyclic — yet the expansion loop never terminates for any fuel, and
`tangle` never reaches `fs::write`.  The `$0` in the body of `a` is
expanded by `Regex::replace`'s replacement-template semantics back into
the matched marker line, so the claimed termination (and hence the
marker-free output) fails on an acyclic document with a root. -/
theorem c1_divergence :
    containsName (extractMacros dollarTexts) rootKey = true ∧
    linkEdges (extractMacros dollarTexts) = Except.ok [(0, 1)] ∧
    isCyclicDirected [(0, 1)] = false ∧
    (∀ fuel, expandCodeMacros fuel (extractMacros dollarTexts) = none) ∧
    (∀ fuel, tangle fuel dollarTexts = none) := by
  have h1 : linkEdges (extractMacros dollarTexts) = Except.ok [(0, 1)] := by decide
  have h2 : isCyclicDirected [(0, 1)] = false := by decide
  refine ⟨by decide, h1, h2, c1_expand_none, fun fuel => ?_⟩
  simp only [tangle, h1, h2, Bool.false_eq_true, if_false, c1_expand_none fuel]

end Tangle
